import Mathlib

/-!
Verification of the threveal profiler core against its specification.

The definitions below are a shallow embedding of the C++ sources:
  - `src/core/topology.cpp`   (CPU-list parsing, lookup table, core-type lookup)
  - `src/core/events.cpp`     (migration classification)
  - `src/include/threveal/core/events.hpp` (event structures, commAsStringView)
  - `src/analysis/event_store.cpp` (sorted storage and correlation queries)
  - `src/collection/migration_tracker.cpp` (ring-buffer consumer)
  - `src/collection/pmu_group.cpp` (group read decoding)
  - `src/collection/pmu_sampler.cpp` (start state machine)

Machine integers (`std::uint32_t`, `std::uint64_t`) are modelled as `Nat`,
with an explicit `% 2 ^ 32` where 32-bit wraparound matters (the CPU-range
expansion loop).  Strings are modelled as lists of byte values.  Fallible
operations returning `std::expected<T, E>` are modelled as `Except E T`.
Loops whose termination is in question carry an explicit fuel argument:
`none` means the loop did not finish within the given number of iterations,
so `∀ fuel, ... = none` states that the loop never terminates.
-/

namespace Threveal

/-- `CoreType` from `types.hpp`: classification of one logical CPU. -/
inductive CoreType where
  | kUnknown
  | kPCore
  | kECore
deriving DecidableEq, Repr

/-- `MigrationType` from `events.hpp`. -/
inductive MigrationType where
  | kUnknown
  | kPToP
  | kPToE
  | kEToP
  | kEToE
deriving DecidableEq, Repr

/-- `TopologyError` from `errors.hpp`. -/
inductive TopologyError where
  | kSysfsNotFound
  | kNotHybridCpu
  | kParseError
  | kInvalidCpuId
  | kPermissionDenied
deriving DecidableEq, Repr

/-- `PmuError` from `errors.hpp`. -/
inductive PmuError where
  | kOpenFailed
  | kReadFailed
  | kEventNotSupported
  | kPermissionDenied
  | kInvalidTarget
  | kTooManyEvents
  | kInvalidState
deriving DecidableEq, Repr

/-- `EbpfError` from `errors.hpp`. -/
inductive EbpfError where
  | kOpenFailed
  | kLoadFailed
  | kAttachFailed
  | kInvalidState
  | kMapAccessFailed
  | kPermissionDenied
deriving DecidableEq, Repr

/-- `MigrationEvent` from `events.hpp`.  The 16-byte `comm` buffer is kept as
a list of byte values; it plays no role in the event-store queries. -/
structure MigrationEvent where
  timestamp_ns : Nat
  pid : Nat
  tid : Nat
  src_cpu : Nat
  dst_cpu : Nat
  comm : List Nat := List.replicate 16 0
deriving DecidableEq, Repr

/-- `PmuSample` from `events.hpp`. -/
structure PmuSample where
  timestamp_ns : Nat
  tid : Nat
  cpu_id : Nat
  instructions : Nat
  cycles : Nat
  llc_misses : Nat
  llc_references : Nat
  branch_misses : Nat
deriving DecidableEq, Repr

/-! ## EventStore (`event_store.cpp`)

The store keeps both sequences sorted non-decreasingly by `timestamp_ns`.
`std::ranges::lower_bound` (resp. `upper_bound`) on such a sequence returns
the first position whose timestamp is `≥ t` (resp. `> t`); on a sorted list
that index is the length of the longest prefix of elements with timestamp
`< t` (resp. `≤ t`), which is how the two bounds are written here. -/

/-- Index returned by `std::ranges::lower_bound(seq, t, {}, key)` on a
`key`-sorted sequence: the first index whose key is `≥ t`. -/
def lowerBoundIdx (key : α → Nat) (l : List α) (t : Nat) : Nat :=
  (l.takeWhile (fun x => key x < t)).length

/-- Index returned by `std::ranges::upper_bound(seq, t, {}, key)` on a
`key`-sorted sequence: the first index whose key is `> t`. -/
def upperBoundIdx (key : α → Nat) (l : List α) (t : Nat) : Nat :=
  (l.takeWhile (fun x => key x ≤ t)).length

/-- `std::vector::insert(begin() + i, e)`. -/
def insertAt (l : List α) (i : Nat) (e : α) : List α :=
  l.take i ++ e :: l.drop i

/-- `EventStore::addMigration`: insert at the lower bound by timestamp. -/
def addMigration (migrations : List MigrationEvent) (event : MigrationEvent) :
    List MigrationEvent :=
  insertAt migrations (lowerBoundIdx MigrationEvent.timestamp_ns migrations event.timestamp_ns)
    event

/-- `EventStore::addPmuSample`: insert at the lower bound by timestamp. -/
def addPmuSample (pmu_samples : List PmuSample) (sample : PmuSample) : List PmuSample :=
  insertAt pmu_samples (lowerBoundIdx PmuSample.timestamp_ns pmu_samples sample.timestamp_ns)
    sample

/-- `EventStore::pmuBeforeMigration`: `upper_bound` by the migration's
timestamp, then walk backwards for the first `tid` match (the reverse
iterator from `upper` visits exactly the reversed prefix below `upper`). -/
def pmuBeforeMigration (pmu_samples : List PmuSample) (migration : MigrationEvent) :
    Option PmuSample :=
  if pmu_samples.isEmpty then none
  else
    let upper := upperBoundIdx PmuSample.timestamp_ns pmu_samples migration.timestamp_ns
    ((pmu_samples.take upper).reverse).find? (fun s => s.tid = migration.tid)

/-- `EventStore::pmuAfterMigration`: `lower_bound` by the migration's
timestamp, then walk forwards for the first `tid` match. -/
def pmuAfterMigration (pmu_samples : List PmuSample) (migration : MigrationEvent) :
    Option PmuSample :=
  if pmu_samples.isEmpty then none
  else
    let lower := lowerBoundIdx PmuSample.timestamp_ns pmu_samples migration.timestamp_ns
    (pmu_samples.drop lower).find? (fun s => s.tid = migration.tid)

/-- The EventStore invariant: a sequence sorted non-decreasingly by the key. -/
def SortedByKey (key : α → Nat) (l : List α) : Prop :=
  l.Pairwise (fun a b => key a ≤ key b)

instance (key : α → Nat) (l : List α) : Decidable (SortedByKey key l) :=
  inferInstanceAs (Decidable (l.Pairwise fun a b => key a ≤ key b))

/-! ### Helper lemmas about the bounds and sorted lists -/

lemma take_length_takeWhile (p : α → Bool) :
    ∀ l : List α, l.take (l.takeWhile p).length = l.takeWhile p := by
  intro l
  induction l with
  | nil => rfl
  | cons a l ih =>
    rw [List.takeWhile_cons]
    by_cases h : p a
    · simp [h, ih]
    · simp [h]

lemma drop_length_takeWhile (p : α → Bool) :
    ∀ l : List α, l.drop (l.takeWhile p).length = l.dropWhile p := by
  intro l
  induction l with
  | nil => rfl
  | cons a l ih =>
    rw [List.takeWhile_cons, List.dropWhile_cons]
    by_cases h : p a
    · simp [h, ih]
    · simp [h]

lemma take_upperBoundIdx (key : α → Nat) (l : List α) (t : Nat) :
    l.take (upperBoundIdx key l t) = l.takeWhile (fun x => key x ≤ t) := by
  unfold upperBoundIdx
  exact take_length_takeWhile _ l

lemma take_lowerBoundIdx (key : α → Nat) (l : List α) (t : Nat) :
    l.take (lowerBoundIdx key l t) = l.takeWhile (fun x => key x < t) := by
  unfold lowerBoundIdx
  exact take_length_takeWhile _ l

lemma drop_upperBoundIdx (key : α → Nat) (l : List α) (t : Nat) :
    l.drop (upperBoundIdx key l t) = l.dropWhile (fun x => key x ≤ t) := by
  unfold upperBoundIdx
  exact drop_length_takeWhile _ l

lemma drop_lowerBoundIdx (key : α → Nat) (l : List α) (t : Nat) :
    l.drop (lowerBoundIdx key l t) = l.dropWhile (fun x => key x < t) := by
  unfold lowerBoundIdx
  exact drop_length_takeWhile _ l

/-- On a sorted list, every element surviving `dropWhile (key · < t)` has key `≥ t`. -/
lemma sorted_mem_dropWhile_lt (key : α → Nat) (t : Nat) :
    ∀ (l : List α), SortedByKey key l →
      ∀ x ∈ l.dropWhile (fun y => key y < t), t ≤ key x := by
  intro l
  induction l with
  | nil => simp
  | cons a l ih =>
    intro hs x hx
    rcases List.pairwise_cons.mp hs with ⟨ha, hl⟩
    rw [List.dropWhile_cons] at hx
    by_cases h : key a < t
    · simp only [h, decide_eq_true_eq, if_pos] at hx
      exact ih hl x (by simpa [h] using hx)
    · rw [if_neg (by simp [h])] at hx
      rcases List.mem_cons.mp hx with rfl | hmem
      · omega
      · exact le_trans (by omega) (ha x hmem)

/-- On a sorted list, every element surviving `dropWhile (key · ≤ t)` has key `> t`. -/
lemma sorted_mem_dropWhile_le (key : α → Nat) (t : Nat) :
    ∀ (l : List α), SortedByKey key l →
      ∀ x ∈ l.dropWhile (fun y => key y ≤ t), t < key x := by
  intro l
  induction l with
  | nil => simp
  | cons a l ih =>
    intro hs x hx
    rcases List.pairwise_cons.mp hs with ⟨ha, hl⟩
    rw [List.dropWhile_cons] at hx
    by_cases h : key a ≤ t
    · simp only [h, decide_eq_true_eq, if_pos] at hx
      exact ih hl x (by simpa [h] using hx)
    · rw [if_neg (by simp [h])] at hx
      rcases List.mem_cons.mp hx with rfl | hmem
      · omega
      · exact lt_of_lt_of_le (by omega) (ha x hmem)

/-- `find?` on a list sorted non-increasingly by key returns a match of
maximal key. -/
lemma find?_max_of_revsorted (key : α → Nat) (q : α → Bool) :
    ∀ (r : List α), r.Pairwise (fun a b => key b ≤ key a) →
      ∀ s, r.find? q = some s → ∀ x ∈ r, q x → key x ≤ key s := by
  intro r
  induction r with
  | nil => simp
  | cons a rest ih =>
    intro hr s h x hx hqx
    rcases List.pairwise_cons.mp hr with ⟨ha, hrest⟩
    rw [List.find?_cons] at h
    by_cases hqa : q a
    · simp only [hqa, if_true, Option.some.injEq] at h
      subst h
      rcases List.mem_cons.mp hx with rfl | hmem
      · exact le_refl _
      · exact ha x hmem
    · simp only [hqa, if_false] at h
      rcases List.mem_cons.mp hx with rfl | hmem
      · exact absurd hqx hqa
      · exact ih hrest s h x hmem hqx

/-- `find?` on a list sorted non-decreasingly by key returns a match of
minimal key. -/
lemma find?_min_of_sorted (key : α → Nat) (q : α → Bool) :
    ∀ (r : List α), SortedByKey key r →
      ∀ s, r.find? q = some s → ∀ x ∈ r, q x → key s ≤ key x := by
  intro r
  induction r with
  | nil => simp
  | cons a rest ih =>
    intro hr s h x hx hqx
    rcases List.pairwise_cons.mp hr with ⟨ha, hrest⟩
    rw [List.find?_cons] at h
    by_cases hqa : q a
    · simp only [hqa, if_true, Option.some.injEq] at h
      subst h
      rcases List.mem_cons.mp hx with rfl | hmem
      · exact le_refl _
      · exact ha x hmem
    · simp only [hqa, if_false] at h
      rcases List.mem_cons.mp hx with rfl | hmem
      · exact absurd hqx hqa
      · exact ih hrest s h x hmem hqx

/-- `pmuBeforeMigration` unfolded: `find?` for the tid over the reversed
prefix of samples with timestamp at most the migration's. -/
lemma pmuBeforeMigration_eq (l : List PmuSample) (m : MigrationEvent) :
    pmuBeforeMigration l m =
      ((l.takeWhile (fun x => x.timestamp_ns ≤ m.timestamp_ns)).reverse).find?
        (fun s => s.tid = m.tid) := by
  unfold pmuBeforeMigration
  by_cases h : l.isEmpty
  · rw [List.isEmpty_iff] at h
    subst h
    simp
  · simp [h, take_upperBoundIdx]

/-- `pmuAfterMigration` unfolded: `find?` for the tid over the suffix of
samples with timestamp at least the migration's. -/
lemma pmuAfterMigration_eq (l : List PmuSample) (m : MigrationEvent) :
    pmuAfterMigration l m =
      (l.dropWhile (fun x => x.timestamp_ns < m.timestamp_ns)).find?
        (fun s => s.tid = m.tid) := by
  unfold pmuAfterMigration
  by_cases h : l.isEmpty
  · rw [List.isEmpty_iff] at h
    subst h
    simp
  · simp [h, drop_lowerBoundIdx]

/-- Inserting at the lower bound splits the list at the strict-prefix boundary. -/
lemma insertAt_lowerBoundIdx_eq (key : α → Nat) (l : List α) (e : α) (t : Nat) :
    insertAt l (lowerBoundIdx key l t) e =
      l.takeWhile (fun x => key x < t) ++ e :: l.dropWhile (fun x => key x < t) := by
  unfold insertAt
  rw [take_lowerBoundIdx, drop_lowerBoundIdx]

/-- Inserting at the lower bound keeps the sequence sorted. -/
lemma insertAt_lowerBoundIdx_sorted (key : α → Nat) (l : List α)
    (hs : SortedByKey key l) (e : α) :
    SortedByKey key (insertAt l (lowerBoundIdx key l (key e)) e) := by
  rw [insertAt_lowerBoundIdx_eq]
  unfold SortedByKey
  rw [List.pairwise_append]
  refine ⟨List.Pairwise.sublist (List.takeWhile_sublist _) hs, ?_, ?_⟩
  · rw [List.pairwise_cons]
    exact ⟨fun b hb => sorted_mem_dropWhile_lt key (key e) l hs b hb,
      List.Pairwise.sublist (List.dropWhile_sublist _) hs⟩
  · intro a ha b hb
    have ha' : key a < key e := by simpa using List.mem_takeWhile_imp ha
    rcases List.mem_cons.mp hb with rfl | hb'
    · omega
    · have := sorted_mem_dropWhile_lt key (key e) l hs b hb'
      omega

/-! ### Claim theorems for the EventStore -/

/-- C1: on a timestamp-sorted sample sequence, when `pmuBeforeMigration`
returns `some s` then `s` has the migration's tid, a timestamp at or before
the migration's (equality allowed), and no stored sample of that tid at or
before the migration has a strictly larger timestamp; when no such sample
exists the result is `none`. -/
theorem pmuBeforeMigration_correct (l : List PmuSample) (m : MigrationEvent)
    (hs : SortedByKey PmuSample.timestamp_ns l) :
    (∀ s, pmuBeforeMigration l m = some s →
      s.tid = m.tid ∧ s.timestamp_ns ≤ m.timestamp_ns ∧
      ∀ s' ∈ l, s'.tid = m.tid → s'.timestamp_ns ≤ m.timestamp_ns →
        s'.timestamp_ns ≤ s.timestamp_ns) ∧
    ((¬ ∃ s' ∈ l, s'.tid = m.tid ∧ s'.timestamp_ns ≤ m.timestamp_ns) →
      pmuBeforeMigration l m = none) := by
  have hchar := pmuBeforeMigration_eq l m
  constructor
  · intro s h
    rw [hchar] at h
    have hq : s.tid = m.tid := by simpa using List.find?_some h
    have hmem : s ∈ l.takeWhile (fun x => x.timestamp_ns ≤ m.timestamp_ns) :=
      List.mem_reverse.mp (List.mem_of_find?_eq_some h)
    have hts : s.timestamp_ns ≤ m.timestamp_ns := by
      simpa using List.mem_takeWhile_imp hmem
    refine ⟨hq, hts, ?_⟩
    intro s' hs' htid hts'
    have hsplit : s' ∈ l.takeWhile (fun x => x.timestamp_ns ≤ m.timestamp_ns) ++
        l.dropWhile (fun x => x.timestamp_ns ≤ m.timestamp_ns) := by
      rw [List.takeWhile_append_dropWhile]
      exact hs'
    have hs'tw : s' ∈ l.takeWhile (fun x => x.timestamp_ns ≤ m.timestamp_ns) := by
      rcases List.mem_append.mp hsplit with h1 | h2
      · exact h1
      · have := sorted_mem_dropWhile_le PmuSample.timestamp_ns m.timestamp_ns l hs s' h2
        omega
    have hrev : (l.takeWhile (fun x => x.timestamp_ns ≤ m.timestamp_ns)).reverse.Pairwise
        (fun a b => b.timestamp_ns ≤ a.timestamp_ns) :=
      List.pairwise_reverse.mpr (List.Pairwise.sublist (List.takeWhile_sublist _) hs)
    exact find?_max_of_revsorted PmuSample.timestamp_ns _ _ hrev s h s'
      (List.mem_reverse.mpr hs'tw) (by simpa using htid)
  · intro hno
    rw [hchar, List.find?_eq_none]
    intro x hx
    have hxtw : x ∈ l.takeWhile (fun y => y.timestamp_ns ≤ m.timestamp_ns) :=
      List.mem_reverse.mp hx
    have hxl : x ∈ l := (List.takeWhile_sublist _).subset hxtw
    have hxts : x.timestamp_ns ≤ m.timestamp_ns := by
      simpa using List.mem_takeWhile_imp hxtw
    simp only [decide_eq_true_eq]
    intro hxt
    exact hno ⟨x, hxl, hxt, hxts⟩

/-- C2: on a timestamp-sorted sample sequence, when `pmuAfterMigration`
returns `some s` then `s` has the migration's tid, a timestamp at or after
the migration's (equality eligible), and no stored sample of that tid at or
after the migration has a strictly smaller timestamp; when no such sample
exists the result is `none`. -/
theorem pmuAfterMigration_correct (l : List PmuSample) (m : MigrationEvent)
    (hs : SortedByKey PmuSample.timestamp_ns l) :
    (∀ s, pmuAfterMigration l m = some s →
      s.tid = m.tid ∧ m.timestamp_ns ≤ s.timestamp_ns ∧
      ∀ s' ∈ l, s'.tid = m.tid → m.timestamp_ns ≤ s'.timestamp_ns →
        s.timestamp_ns ≤ s'.timestamp_ns) ∧
    ((¬ ∃ s' ∈ l, s'.tid = m.tid ∧ m.timestamp_ns ≤ s'.timestamp_ns) →
      pmuAfterMigration l m = none) := by
  have hchar := pmuAfterMigration_eq l m
  constructor
  · intro s h
    rw [hchar] at h
    have hq : s.tid = m.tid := by simpa using List.find?_some h
    have hmem : s ∈ l.dropWhile (fun x => x.timestamp_ns < m.timestamp_ns) :=
      List.mem_of_find?_eq_some h
    have hts : m.timestamp_ns ≤ s.timestamp_ns :=
      sorted_mem_dropWhile_lt PmuSample.timestamp_ns m.timestamp_ns l hs s hmem
    refine ⟨hq, hts, ?_⟩
    intro s' hs' htid hts'
    have hsplit : s' ∈ l.takeWhile (fun x => x.timestamp_ns < m.timestamp_ns) ++
        l.dropWhile (fun x => x.timestamp_ns < m.timestamp_ns) := by
      rw [List.takeWhile_append_dropWhile]
      exact hs'
    have hs'dw : s' ∈ l.dropWhile (fun x => x.timestamp_ns < m.timestamp_ns) := by
      rcases List.mem_append.mp hsplit with h1 | h2
      · have := List.mem_takeWhile_imp h1
        simp only [decide_eq_true_eq] at this
        omega
      · exact h2
    have hdw : SortedByKey PmuSample.timestamp_ns
        (l.dropWhile (fun x => x.timestamp_ns < m.timestamp_ns)) :=
      List.Pairwise.sublist (List.dropWhile_sublist _) hs
    exact find?_min_of_sorted PmuSample.timestamp_ns _ _ hdw s h s' hs'dw
      (by simpa using htid)
  · intro hno
    rw [hchar, List.find?_eq_none]
    intro x hx
    have hxl : x ∈ l := (List.dropWhile_sublist _).subset hx
    have hxts : m.timestamp_ns ≤ x.timestamp_ns :=
      sorted_mem_dropWhile_lt PmuSample.timestamp_ns m.timestamp_ns l hs x hx
    simp only [decide_eq_true_eq]
    intro hxt
    exact hno ⟨x, hxl, hxt, hxts⟩

/-- Correlation scenario from the specification: six alternating samples of
two threads. -/
def demoSamples : List PmuSample :=
  [⟨1000, 42, 0, 0, 0, 0, 0, 0⟩, ⟨1500, 43, 0, 0, 0, 0, 0, 0⟩,
   ⟨2000, 42, 0, 0, 0, 0, 0, 0⟩, ⟨2500, 43, 0, 0, 0, 0, 0, 0⟩,
   ⟨3000, 42, 0, 0, 0, 0, 0, 0⟩, ⟨3500, 43, 0, 0, 0, 0, 0, 0⟩]

/-- Migration of tid 42 at t=2800 (used with `pmuBeforeMigration`). -/
def demoMigBefore : MigrationEvent := ⟨2800, 1, 42, 0, 1, List.replicate 16 0⟩

/-- Migration of tid 42 at t=2200 (used with `pmuAfterMigration`). -/
def demoMigAfter : MigrationEvent := ⟨2200, 1, 42, 0, 1, List.replicate 16 0⟩

theorem pmuBeforeMigration_correct_witness :
    SortedByKey PmuSample.timestamp_ns demoSamples ∧
    ((∀ s, pmuBeforeMigration demoSamples demoMigBefore = some s →
      s.tid = demoMigBefore.tid ∧ s.timestamp_ns ≤ demoMigBefore.timestamp_ns ∧
      ∀ s' ∈ demoSamples, s'.tid = demoMigBefore.tid →
        s'.timestamp_ns ≤ demoMigBefore.timestamp_ns →
        s'.timestamp_ns ≤ s.timestamp_ns) ∧
    ((¬ ∃ s' ∈ demoSamples, s'.tid = demoMigBefore.tid ∧
        s'.timestamp_ns ≤ demoMigBefore.timestamp_ns) →
      pmuBeforeMigration demoSamples demoMigBefore = none)) :=
  ⟨by decide, pmuBeforeMigration_correct demoSamples demoMigBefore (by decide)⟩

theorem pmuAfterMigration_correct_witness :
    SortedByKey PmuSample.timestamp_ns demoSamples ∧
    ((∀ s, pmuAfterMigration demoSamples demoMigAfter = some s →
      s.tid = demoMigAfter.tid ∧ demoMigAfter.timestamp_ns ≤ s.timestamp_ns ∧
      ∀ s' ∈ demoSamples, s'.tid = demoMigAfter.tid →
        demoMigAfter.timestamp_ns ≤ s'.timestamp_ns →
        s.timestamp_ns ≤ s'.timestamp_ns) ∧
    ((¬ ∃ s' ∈ demoSamples, s'.tid = demoMigAfter.tid ∧
        demoMigAfter.timestamp_ns ≤ s'.timestamp_ns) →
      pmuAfterMigration demoSamples demoMigAfter = none)) :=
  ⟨by decide, pmuAfterMigration_correct demoSamples demoMigAfter (by decide)⟩

/-- An existing migration at t=5 of thread 1. -/
def equalTsExisting : MigrationEvent := ⟨5, 0, 1, 0, 0, List.replicate 16 0⟩

/-- A newly arriving migration with the same timestamp, thread 2. -/
def equalTsArriving : MigrationEvent := ⟨5, 0, 2, 0, 0, List.replicate 16 0⟩

/-- C3 counterexample: `addMigration` places an equal-timestamp newcomer
BEFORE the already-stored element, not after it — `lower_bound` insertion is
not stable in arrival order. -/
theorem addMigration_equal_ts_not_appended :
    addMigration [equalTsExisting] equalTsArriving = [equalTsArriving, equalTsExisting] ∧
    addMigration [equalTsExisting] equalTsArriving ≠ [equalTsExisting, equalTsArriving] := by
  constructor
  · decide
  · decide

/-- C3 amended: on a timestamp-sorted store, `addMigration` (and likewise
`addPmuSample`) inserts at the lower bound — i.e. BEFORE every stored element
of equal timestamp — splitting the store at the strict-timestamp prefix, and
the store stays sorted. -/
theorem addEvents_lowerBound_insertion
    (lm : List MigrationEvent) (hm : SortedByKey MigrationEvent.timestamp_ns lm)
    (e : MigrationEvent)
    (lp : List PmuSample) (hp : SortedByKey PmuSample.timestamp_ns lp) (s : PmuSample) :
    (addMigration lm e =
      lm.takeWhile (fun x => x.timestamp_ns < e.timestamp_ns) ++
        e :: lm.dropWhile (fun x => x.timestamp_ns < e.timestamp_ns)) ∧
    (∀ x ∈ lm.dropWhile (fun x => x.timestamp_ns < e.timestamp_ns),
      e.timestamp_ns ≤ x.timestamp_ns) ∧
    SortedByKey MigrationEvent.timestamp_ns (addMigration lm e) ∧
    (addPmuSample lp s =
      lp.takeWhile (fun x => x.timestamp_ns < s.timestamp_ns) ++
        s :: lp.dropWhile (fun x => x.timestamp_ns < s.timestamp_ns)) ∧
    (∀ x ∈ lp.dropWhile (fun x => x.timestamp_ns < s.timestamp_ns),
      s.timestamp_ns ≤ x.timestamp_ns) ∧
    SortedByKey PmuSample.timestamp_ns (addPmuSample lp s) := by
  refine ⟨insertAt_lowerBoundIdx_eq _ lm e e.timestamp_ns,
    fun x hx => sorted_mem_dropWhile_lt _ e.timestamp_ns lm hm x hx,
    insertAt_lowerBoundIdx_sorted _ lm hm e,
    insertAt_lowerBoundIdx_eq _ lp s s.timestamp_ns,
    fun x hx => sorted_mem_dropWhile_lt _ s.timestamp_ns lp hp x hx,
    insertAt_lowerBoundIdx_sorted _ lp hp s⟩

theorem addEvents_lowerBound_insertion_witness :
    SortedByKey MigrationEvent.timestamp_ns [equalTsExisting] ∧
    SortedByKey PmuSample.timestamp_ns demoSamples ∧
    ((addMigration [equalTsExisting] equalTsArriving =
      [equalTsExisting].takeWhile (fun x => x.timestamp_ns < equalTsArriving.timestamp_ns) ++
        equalTsArriving ::
          [equalTsExisting].dropWhile (fun x => x.timestamp_ns < equalTsArriving.timestamp_ns)) ∧
    (∀ x ∈ [equalTsExisting].dropWhile
        (fun x => x.timestamp_ns < equalTsArriving.timestamp_ns),
      equalTsArriving.timestamp_ns ≤ x.timestamp_ns) ∧
    SortedByKey MigrationEvent.timestamp_ns (addMigration [equalTsExisting] equalTsArriving) ∧
    (addPmuSample demoSamples ⟨2000, 7, 0, 0, 0, 0, 0, 0⟩ =
      demoSamples.takeWhile (fun x => x.timestamp_ns < 2000) ++
        (⟨2000, 7, 0, 0, 0, 0, 0, 0⟩ : PmuSample) ::
          demoSamples.dropWhile (fun x => x.timestamp_ns < 2000)) ∧
    (∀ x ∈ demoSamples.dropWhile (fun x => x.timestamp_ns < 2000),
      (2000 : Nat) ≤ x.timestamp_ns) ∧
    SortedByKey PmuSample.timestamp_ns (addPmuSample demoSamples ⟨2000, 7, 0, 0, 0, 0, 0, 0⟩)) :=
  ⟨by decide, by decide,
    addEvents_lowerBound_insertion [equalTsExisting] (by decide) equalTsArriving
      demoSamples (by decide) ⟨2000, 7, 0, 0, 0, 0, 0, 0⟩⟩

instance {a b : Type} [DecidableEq a] [DecidableEq b] : DecidableEq (Except a b) :=
  fun x y =>
    match x, y with
    | .error u, .error v =>
      if h : u = v then .isTrue (by rw [h]) else .isFalse (fun hc => h (Except.error.inj hc))
    | .error _, .ok _ => .isFalse (fun hc => Except.noConfusion hc)
    | .ok _, .error _ => .isFalse (fun hc => Except.noConfusion hc)
    | .ok u, .ok v =>
      if h : u = v then .isTrue (by rw [h]) else .isFalse (fun hc => h (Except.ok.inj hc))

/-! ## Topology (`topology.cpp`)

`TopologyMap::buildLookupTable` sizes a dense table to the maximum listed
CPU id plus one, fills it with `kUnknown`, then writes `kPCore` over every
listed P-core index and `kECore` over every listed E-core index.  `max_cpu`
is a `CpuId` (`std::uint32_t`), so `max_cpu + 1` in the `resize` call wraps
modulo `2 ^ 32`: a listed id of `4294967295` resizes the table to 0 entries
and the assignment loops then write out of bounds (undefined behaviour in
the source; `List.set` out of range is a no-op here, so the theorems below
assume every listed id below `2 ^ 32 - 1`, keeping the model inside the
defined behaviour). -/

/-- One assignment loop of `buildLookupTable` (`cpu_to_type_[cpu] = v`). -/
def setMany (table : List CoreType) (cpus : List Nat) (v : CoreType) : List CoreType :=
  cpus.foldl (fun acc c => acc.set c v) table

/-- The `max_cpu` computation of `buildLookupTable`: fold `max` over both
core lists starting from 0. -/
def maxListedCpu (p_cores e_cores : List Nat) : Nat :=
  e_cores.foldl (fun m c => max m c) (p_cores.foldl (fun m c => max m c) 0)

/-- `TopologyMap::buildLookupTable`:
`cpu_to_type_.resize(max_cpu + 1, kUnknown)` — with the 32-bit wrap of
`max_cpu + 1` made explicit — followed by the two assignment loops. -/
def buildLookupTable (p_cores e_cores : List Nat) : List CoreType :=
  setMany
    (setMany
      (List.replicate ((maxListedCpu p_cores e_cores + 1) % 2 ^ 32) CoreType.kUnknown)
      p_cores CoreType.kPCore)
    e_cores CoreType.kECore

/-- `TopologyMap` from `topology.hpp`: the two core lists plus the dense
lookup table built by the constructor. -/
structure TopologyMap where
  p_cores : List Nat
  e_cores : List Nat
  cpu_to_type : List CoreType
deriving DecidableEq, Repr

/-- The `TopologyMap` constructor: copy both lists and build the table. -/
def TopologyMap.make (p_cores e_cores : List Nat) : TopologyMap :=
  ⟨p_cores, e_cores, buildLookupTable p_cores e_cores⟩

/-- `TopologyMap::getCoreType`. -/
def TopologyMap.getCoreType (tm : TopologyMap) (cpu_id : Nat) :
    Except TopologyError CoreType :=
  if tm.cpu_to_type.length ≤ cpu_id then .error .kInvalidCpuId
  else
    let t := tm.cpu_to_type.getD cpu_id CoreType.kUnknown
    if t = CoreType.kUnknown then .error .kInvalidCpuId
    else .ok t

/-- `TopologyMap::isHybrid`. -/
def TopologyMap.isHybrid (tm : TopologyMap) : Bool :=
  !tm.p_cores.isEmpty && !tm.e_cores.isEmpty

/-! ### Lookup-table lemmas -/

lemma setMany_length (v : CoreType) :
    ∀ (cpus : List Nat) (table : List CoreType), (setMany table cpus v).length = table.length := by
  intro cpus
  induction cpus with
  | nil => intro table; rfl
  | cons a tl ih =>
    intro table
    show (setMany (table.set a v) tl v).length = _
    rw [ih (table.set a v), List.length_set]

lemma getD_setMany_not_mem (v d : CoreType) (c : Nat) :
    ∀ (cpus : List Nat) (table : List CoreType), c ∉ cpus →
      (setMany table cpus v).getD c d = table.getD c d := by
  intro cpus
  induction cpus with
  | nil => intro table _; rfl
  | cons a tl ih =>
    intro table hc
    have hne : a ≠ c := fun h => hc (h ▸ List.mem_cons_self a tl)
    have htl : c ∉ tl := fun h => hc (List.mem_cons_of_mem a h)
    show (setMany (table.set a v) tl v).getD c d = _
    rw [ih (table.set a v) htl]
    simp [List.getD_eq_getElem?_getD, List.getElem?_set_ne hne]

lemma getD_setMany_mem (v d : CoreType) (c : Nat) :
    ∀ (cpus : List Nat) (table : List CoreType), c ∈ cpus → c < table.length →
      (setMany table cpus v).getD c d = v := by
  intro cpus
  induction cpus with
  | nil => intro table h _; cases h
  | cons a tl ih =>
    intro table hc hlen
    show (setMany (table.set a v) tl v).getD c d = v
    by_cases htl : c ∈ tl
    · exact ih (table.set a v) htl (by rw [List.length_set]; exact hlen)
    · have hac : a = c := by
        rcases List.mem_cons.mp hc with h | h
        · exact h.symm
        · exact absurd h htl
      subst hac
      rw [getD_setMany_not_mem v d a tl (table.set a v) htl]
      simp [List.getD_eq_getElem?_getD, List.getElem?_set_self, hlen]

lemma le_foldl_max : ∀ (l : List Nat) (a : Nat), a ≤ l.foldl (fun m c => max m c) a := by
  intro l
  induction l with
  | nil => intro a; exact le_refl a
  | cons b tl ih =>
    intro a
    exact le_trans (le_max_left a b) (ih (max a b))

lemma mem_le_foldl_max (c : Nat) :
    ∀ (l : List Nat) (a : Nat), c ∈ l → c ≤ l.foldl (fun m c => max m c) a := by
  intro l
  induction l with
  | nil => intro a h; cases h
  | cons b tl ih =>
    intro a h
    rcases List.mem_cons.mp h with rfl | h
    · exact le_trans (le_max_right a c) (le_foldl_max tl (max a c))
    · exact ih (max a b) h

lemma mem_le_maxListedCpu (p e : List Nat) (c : Nat) (h : c ∈ p ∨ c ∈ e) :
    c ≤ maxListedCpu p e := by
  unfold maxListedCpu
  rcases h with h | h
  · exact le_trans (mem_le_foldl_max c p 0 h) (le_foldl_max e _)
  · exact mem_le_foldl_max c e _ h

lemma buildLookupTable_length (p e : List Nat) :
    (buildLookupTable p e).length = (maxListedCpu p e + 1) % 2 ^ 32 := by
  unfold buildLookupTable
  rw [setMany_length, setMany_length, List.length_replicate]

lemma foldl_max_le (B : Nat) :
    ∀ (l : List Nat) (a : Nat), (∀ c ∈ l, c ≤ B) → a ≤ B →
      l.foldl (fun m c => max m c) a ≤ B := by
  intro l
  induction l with
  | nil => intro a _ ha; exact ha
  | cons b tl ih =>
    intro a h ha
    exact ih (max a b) (fun c hc => h c (List.mem_cons_of_mem b hc))
      (max_le ha (h b (List.mem_cons_self b tl)))

/-- With every listed id below the 32-bit sentinel, `max_cpu + 1` does not
wrap. -/
lemma maxListedCpu_succ_lt (p e : List Nat)
    (hpb : ∀ c ∈ p, c < 2 ^ 32 - 1) (heb : ∀ c ∈ e, c < 2 ^ 32 - 1) :
    maxListedCpu p e + 1 < 2 ^ 32 := by
  unfold maxListedCpu
  have h1 : p.foldl (fun m c => max m c) 0 ≤ 2 ^ 32 - 2 :=
    foldl_max_le (2 ^ 32 - 2) p 0 (fun c hc => by have := hpb c hc; omega) (by omega)
  have h2 : e.foldl (fun m c => max m c) (p.foldl (fun m c => max m c) 0) ≤ 2 ^ 32 - 2 :=
    foldl_max_le (2 ^ 32 - 2) e _ (fun c hc => by have := heb c hc; omega) h1
  omega

/-- C5: with disjoint, duplicate-free core lists of real CPU ids (each
below the 32-bit sentinel `4294967295`, where `resize(max_cpu + 1)` would
wrap to 0 and the source's table writes would go out of bounds),
`getCoreType` answers `kPCore` on every listed P-core, `kECore` on every
listed E-core, and the `kInvalidCpuId` error on every other id (ids beyond
the table and gap ids alike); `isHybrid` holds exactly when both lists are
non-empty. -/
theorem topology_lookup_correct (p e : List Nat)
    (hdisj : ∀ c, c ∈ p → c ∉ e) (hp : p.Nodup) (he : e.Nodup)
    (hpb : ∀ c ∈ p, c < 2 ^ 32 - 1) (heb : ∀ c ∈ e, c < 2 ^ 32 - 1) :
    (∀ c ∈ p, (TopologyMap.make p e).getCoreType c = .ok CoreType.kPCore) ∧
    (∀ c ∈ e, (TopologyMap.make p e).getCoreType c = .ok CoreType.kECore) ∧
    (∀ c, c ∉ p → c ∉ e →
      (TopologyMap.make p e).getCoreType c = .error TopologyError.kInvalidCpuId) ∧
    ((TopologyMap.make p e).isHybrid = true ↔ p ≠ [] ∧ e ≠ []) := by
  have hmod : maxListedCpu p e + 1 < 2 ^ 32 := maxListedCpu_succ_lt p e hpb heb
  have hlen : (TopologyMap.make p e).cpu_to_type.length = maxListedCpu p e + 1 := by
    show (buildLookupTable p e).length = _
    rw [buildLookupTable_length, Nat.mod_eq_of_lt hmod]
  refine ⟨?_, ?_, ?_, ?_⟩
  · intro c hc
    have hcle : c < (TopologyMap.make p e).cpu_to_type.length := by
      rw [hlen]
      exact Nat.lt_succ_of_le (mem_le_maxListedCpu p e c (Or.inl hc))
    have hval : (TopologyMap.make p e).cpu_to_type.getD c CoreType.kUnknown =
        CoreType.kPCore := by
      show (buildLookupTable p e).getD c CoreType.kUnknown = _
      unfold buildLookupTable
      rw [getD_setMany_not_mem _ _ c e _ (hdisj c hc)]
      exact getD_setMany_mem _ _ c p _ hc
        (by rw [List.length_replicate, Nat.mod_eq_of_lt hmod]
            exact Nat.lt_succ_of_le (mem_le_maxListedCpu p e c (Or.inl hc)))
    unfold TopologyMap.getCoreType
    rw [if_neg (by omega)]
    rw [List.getD_eq_getElem?_getD] at hval
    simp [hval]
  · intro c hc
    have hcle : c < (TopologyMap.make p e).cpu_to_type.length := by
      rw [hlen]
      exact Nat.lt_succ_of_le (mem_le_maxListedCpu p e c (Or.inr hc))
    have hval : (TopologyMap.make p e).cpu_to_type.getD c CoreType.kUnknown =
        CoreType.kECore := by
      show (buildLookupTable p e).getD c CoreType.kUnknown = _
      unfold buildLookupTable
      exact getD_setMany_mem _ _ c e _ hc
        (by rw [setMany_length, List.length_replicate, Nat.mod_eq_of_lt hmod]
            exact Nat.lt_succ_of_le (mem_le_maxListedCpu p e c (Or.inr hc)))
    unfold TopologyMap.getCoreType
    rw [if_neg (by omega)]
    rw [List.getD_eq_getElem?_getD] at hval
    simp [hval]
  · intro c hcp hce
    by_cases hlt : (TopologyMap.make p e).cpu_to_type.length ≤ c
    · unfold TopologyMap.getCoreType
      rw [if_pos hlt]
    · have hval : (TopologyMap.make p e).cpu_to_type.getD c CoreType.kUnknown =
          CoreType.kUnknown := by
        show (buildLookupTable p e).getD c CoreType.kUnknown = _
        unfold buildLookupTable
        rw [getD_setMany_not_mem _ _ c e _ hce, getD_setMany_not_mem _ _ c p _ hcp]
        rw [List.getD_eq_getElem?_getD, List.getElem?_replicate]
        split <;> rfl
      unfold TopologyMap.getCoreType
      rw [if_neg hlt]
      rw [List.getD_eq_getElem?_getD] at hval
      simp [hval]
  · show (!p.isEmpty && !e.isEmpty) = true ↔ _
    simp [List.isEmpty_iff]

/-- The spec scenario's topology: P-cores 0–3, E-cores 4–7. -/
def demoTopology : TopologyMap := TopologyMap.make [0, 1, 2, 3] [4, 5, 6, 7]

theorem topology_lookup_correct_witness :
    ((∀ c, c ∈ ([0, 1, 2, 3] : List Nat) → c ∉ ([4, 5, 6, 7] : List Nat)) ∧
      ([0, 1, 2, 3] : List Nat).Nodup ∧ ([4, 5, 6, 7] : List Nat).Nodup ∧
      (∀ c ∈ ([0, 1, 2, 3] : List Nat), c < 2 ^ 32 - 1) ∧
      (∀ c ∈ ([4, 5, 6, 7] : List Nat), c < 2 ^ 32 - 1)) ∧
    ((∀ c ∈ ([0, 1, 2, 3] : List Nat),
      (TopologyMap.make [0, 1, 2, 3] [4, 5, 6, 7]).getCoreType c = .ok CoreType.kPCore) ∧
    (∀ c ∈ ([4, 5, 6, 7] : List Nat),
      (TopologyMap.make [0, 1, 2, 3] [4, 5, 6, 7]).getCoreType c = .ok CoreType.kECore) ∧
    (∀ c, c ∉ ([0, 1, 2, 3] : List Nat) → c ∉ ([4, 5, 6, 7] : List Nat) →
      (TopologyMap.make [0, 1, 2, 3] [4, 5, 6, 7]).getCoreType c =
        .error TopologyError.kInvalidCpuId) ∧
    ((TopologyMap.make [0, 1, 2, 3] [4, 5, 6, 7]).isHybrid = true ↔
      ([0, 1, 2, 3] : List Nat) ≠ [] ∧ ([4, 5, 6, 7] : List Nat) ≠ [])) :=
  ⟨⟨by decide, by decide, by decide, by decide, by decide⟩,
    topology_lookup_correct [0, 1, 2, 3] [4, 5, 6, 7] (by decide) (by decide) (by decide)
      (by decide) (by decide)⟩

/-! ## Classifier (`events.cpp`) -/

/-- `classifyMigration` from `events.cpp`: look up both CPUs; any lookup
error gives `kUnknown`, otherwise branch on the two core types. -/
def classifyMigration (event : MigrationEvent) (topology : TopologyMap) : MigrationType :=
  match topology.getCoreType event.src_cpu, topology.getCoreType event.dst_cpu with
  | .error _, _ => MigrationType.kUnknown
  | _, .error _ => MigrationType.kUnknown
  | .ok src_type, .ok dst_type =>
    if src_type = CoreType.kPCore then
      if dst_type = CoreType.kPCore then MigrationType.kPToP else MigrationType.kPToE
    else
      if dst_type = CoreType.kPCore then MigrationType.kEToP else MigrationType.kEToE

/-- C6: `classifyMigration` answers `kUnknown` whenever either CPU lookup
errors, and otherwise exactly the tabulated pair result. -/
theorem classifyMigration_correct (event : MigrationEvent) (topology : TopologyMap) :
    (∀ err, topology.getCoreType event.src_cpu = .error err →
      classifyMigration event topology = MigrationType.kUnknown) ∧
    (∀ err, topology.getCoreType event.dst_cpu = .error err →
      classifyMigration event topology = MigrationType.kUnknown) ∧
    (topology.getCoreType event.src_cpu = .ok CoreType.kPCore →
      topology.getCoreType event.dst_cpu = .ok CoreType.kPCore →
      classifyMigration event topology = MigrationType.kPToP) ∧
    (topology.getCoreType event.src_cpu = .ok CoreType.kPCore →
      topology.getCoreType event.dst_cpu = .ok CoreType.kECore →
      classifyMigration event topology = MigrationType.kPToE) ∧
    (topology.getCoreType event.src_cpu = .ok CoreType.kECore →
      topology.getCoreType event.dst_cpu = .ok CoreType.kPCore →
      classifyMigration event topology = MigrationType.kEToP) ∧
    (topology.getCoreType event.src_cpu = .ok CoreType.kECore →
      topology.getCoreType event.dst_cpu = .ok CoreType.kECore →
      classifyMigration event topology = MigrationType.kEToE) := by
  unfold classifyMigration
  refine ⟨?_, ?_, ?_, ?_, ?_, ?_⟩
  · intro err h
    rw [h]
    rcases topology.getCoreType event.dst_cpu with e2 | t2 <;> rfl
  · intro err h
    rw [h]
    rcases topology.getCoreType event.src_cpu with e1 | t1 <;> rfl
  · intro h1 h2
    rw [h1, h2]
    rfl
  · intro h1 h2
    rw [h1, h2]
    rfl
  · intro h1 h2
    rw [h1, h2]
    rfl
  · intro h1 h2
    rw [h1, h2]
    rfl

/-- Spec scenario migrations over `demoTopology`. -/
def demoMigPToE : MigrationEvent := ⟨100, 1, 42, 1, 5, List.replicate 16 0⟩

/-- Spec scenario: migration from CPU 99 (unknown) to CPU 0. -/
def demoMigUnknown : MigrationEvent := ⟨100, 1, 42, 99, 0, List.replicate 16 0⟩

theorem classifyMigration_correct_witness :
    classifyMigration demoMigPToE demoTopology = MigrationType.kPToE ∧
    classifyMigration demoMigUnknown demoTopology = MigrationType.kUnknown :=
  ⟨(classifyMigration_correct demoMigPToE demoTopology).2.2.2.1 (by decide) (by decide),
    (classifyMigration_correct demoMigUnknown demoTopology).1
      TopologyError.kInvalidCpuId (by decide)⟩

/-! ## CPU-list parsing (`topology.cpp`)

Strings are lists of byte values.  `CpuId` is `std::uint32_t`, so the
range-expansion loop `for (CpuId cpu = *start; cpu <= *end; ++cpu)`
increments modulo `2 ^ 32`; it is modelled with explicit fuel, `none`
meaning the loop did not finish within `fuel` iterations. -/

/-- The whitespace set of `trim` (`" \t\n\r"`). -/
def isWhitespaceByte (b : Nat) : Bool :=
  b = 32 || b = 9 || b = 10 || b = 13

/-- `trim`: drop leading and trailing whitespace. -/
def trim (s : List Nat) : List Nat :=
  ((s.dropWhile isWhitespaceByte).reverse.dropWhile isWhitespaceByte).reverse

/-- Decimal digit bytes accepted by `std::from_chars`. -/
def isDigitByte (b : Nat) : Bool :=
  48 ≤ b && b ≤ 57

/-- The value accumulated by `std::from_chars` over decimal digits. -/
def digitsToNat (s : List Nat) : Nat :=
  s.foldl (fun acc b => 10 * acc + (b - 48)) 0

/-- `parseNumber`: trim, reject empty input, then `std::from_chars` into a
`std::uint32_t` — success exactly when the remainder is all digits and the
value fits in 32 bits. -/
def parseNumber (s : List Nat) : Except TopologyError Nat :=
  let t := trim s
  if t.isEmpty then .error TopologyError.kParseError
  else if t.all isDigitByte then
    if digitsToNat t < 2 ^ 32 then .ok (digitsToNat t)
    else .error TopologyError.kParseError
  else .error TopologyError.kParseError

/-- `std::string_view::find(c)`: index of the first occurrence. -/
def strFindByte (c : Nat) : List Nat → Option Nat
  | [] => none
  | b :: rest => if b = c then some 0 else (strFindByte c rest).map (· + 1)

/-- The range-expansion loop of `parseElement`:
`for (CpuId cpu = start; cpu <= last; ++cpu) result.push_back(cpu)` with the
32-bit increment made explicit.  `none` = out of fuel. -/
def expandRange : Nat → Nat → Nat → List Nat → Option (List Nat)
  | 0, _, _, _ => none
  | fuel + 1, cpu, last, acc =>
    if cpu ≤ last then expandRange fuel ((cpu + 1) % 2 ^ 32) last (acc ++ [cpu])
    else some acc

/-- `parseElement`: a trimmed element is a plain number or a dash range;
ranges with `start > end` are rejected, valid ranges are expanded. -/
def parseElement (fuel : Nat) (element : List Nat) (result : List Nat) :
    Option (Except TopologyError (List Nat)) :=
  let el := trim element
  if el.isEmpty then some (.error TopologyError.kParseError)
  else
    match strFindByte 45 el with
    | none =>
      match parseNumber el with
      | .error err => some (.error err)
      | .ok num => some (.ok (result ++ [num]))
    | some dash_pos =>
      match parseNumber (el.take dash_pos) with
      | .error err => some (.error err)
      | .ok range_start =>
        match parseNumber (el.drop (dash_pos + 1)) with
        | .error err => some (.error err)
        | .ok range_end =>
          if range_end < range_start then some (.error TopologyError.kParseError)
          else (expandRange fuel range_start range_end result).map .ok

/-- The comma loop of `parseCpuList`: split the next element, parse it, fail
on a trailing comma, recurse on the rest. -/
def parseLoop : Nat → List Nat → List Nat → Option (Except TopologyError (List Nat))
  | 0, _, _ => none
  | fuel + 1, content, result =>
    match strFindByte 44 content with
    | none => parseElement fuel content result
    | some comma_pos =>
      match parseElement fuel (content.take comma_pos) result with
      | none => none
      | some (.error err) => some (.error err)
      | some (.ok result2) =>
        if content.length ≤ comma_pos + 1 then some (.error TopologyError.kParseError)
        else parseLoop fuel (content.drop (comma_pos + 1)) result2

/-- `parseCpuList`: trim, reject empty input, run the comma loop. -/
def parseCpuList (fuel : Nat) (content : List Nat) :
    Option (Except TopologyError (List Nat)) :=
  let c := trim content
  if c.isEmpty then some (.error TopologyError.kParseError)
  else parseLoop fuel c []

/-- Canonical decimal rendering of a number as bytes. -/
def renderNat (n : Nat) : List Nat :=
  if n = 0 then [48] else (Nat.digits 10 n).reverse.map (fun d => d + 48)

/-- The string `"a-b"` handed to `parseCpuList`. -/
def renderRange (a b : Nat) : List Nat :=
  renderNat a ++ 45 :: renderNat b

/-! ### Parser lemmas -/

lemma isDigitByte_renderNat (n : Nat) : ∀ b ∈ renderNat n, isDigitByte b = true := by
  intro b hb
  unfold renderNat at hb
  by_cases h : n = 0
  · simp [h] at hb
    subst hb
    rfl
  · rw [if_neg h] at hb
    rcases List.mem_map.mp hb with ⟨d, hd, rfl⟩
    have hlt : d < 10 := Nat.digits_lt_base (by norm_num) (List.mem_reverse.mp hd)
    unfold isDigitByte
    simp only [Bool.and_eq_true, decide_eq_true_eq]
    omega

lemma renderNat_ne_nil (n : Nat) : renderNat n ≠ [] := by
  unfold renderNat
  by_cases h : n = 0
  · simp [h]
  · rw [if_neg h]
    have hne : Nat.digits 10 n ≠ [] := Nat.digits_ne_nil_iff_ne_zero.mpr h
    simp [hne]

lemma not_ws_of_digit (x : Nat) (h : isDigitByte x = true) : isWhitespaceByte x = false := by
  unfold isDigitByte at h
  unfold isWhitespaceByte
  simp only [Bool.and_eq_true, decide_eq_true_eq] at h
  simp only [Bool.or_eq_false_iff, decide_eq_false_iff_not]
  omega

lemma not_whitespace_renderRange (a b : Nat) :
    ∀ x ∈ renderRange a b, isWhitespaceByte x = false := by
  intro x hx
  unfold renderRange at hx
  rcases List.mem_append.mp hx with h | h
  · exact not_ws_of_digit x (isDigitByte_renderNat a x h)
  · rcases List.mem_cons.mp h with rfl | h
    · rfl
    · exact not_ws_of_digit x (isDigitByte_renderNat b x h)

lemma comma_not_mem_renderRange (a b : Nat) : (44 : Nat) ∉ renderRange a b := by
  intro hm
  unfold renderRange at hm
  rcases List.mem_append.mp hm with h | h
  · have := isDigitByte_renderNat a 44 h
    simp [isDigitByte] at this
  · rcases List.mem_cons.mp h with hh | h
    · exact absurd hh (by decide)
    · have := isDigitByte_renderNat b 44 h
      simp [isDigitByte] at this

lemma dash_not_mem_renderNat (n : Nat) : (45 : Nat) ∉ renderNat n := by
  intro hm
  have := isDigitByte_renderNat n 45 hm
  simp [isDigitByte] at this

lemma renderRange_ne_nil (a b : Nat) : ¬((renderRange a b).isEmpty = true) := by
  intro hc
  have hnil : renderRange a b = [] := List.isEmpty_iff.mp hc
  unfold renderRange at hnil
  simp at hnil

lemma dropWhile_eq_self_of (p : Nat → Bool) (l : List Nat)
    (h : ∀ b ∈ l, p b = false) : l.dropWhile p = l := by
  cases l with
  | nil => rfl
  | cons a t =>
    rw [List.dropWhile_cons, if_neg]
    rw [h a (List.mem_cons_self a t)]
    simp

lemma trim_eq_self (s : List Nat) (h : ∀ b ∈ s, isWhitespaceByte b = false) :
    trim s = s := by
  unfold trim
  rw [dropWhile_eq_self_of _ s h]
  rw [dropWhile_eq_self_of _ s.reverse (fun b hb => h b (List.mem_reverse.mp hb))]
  exact List.reverse_reverse s

lemma strFindByte_eq_none (c : Nat) :
    ∀ l : List Nat, c ∉ l → strFindByte c l = none := by
  intro l
  induction l with
  | nil => intro _; rfl
  | cons a t ih =>
    intro h
    have hane : a ≠ c := by
      intro hac
      subst hac
      exact h (List.mem_cons_self a t)
    unfold strFindByte
    rw [if_neg hane]
    rw [ih (fun hm => h (List.mem_cons_of_mem a hm))]
    rfl

lemma strFindByte_first (c : Nat) :
    ∀ (l1 l2 : List Nat), c ∉ l1 → strFindByte c (l1 ++ c :: l2) = some l1.length := by
  intro l1
  induction l1 with
  | nil => intro l2 _; simp [strFindByte]
  | cons a t ih =>
    intro l2 h
    have hane : a ≠ c := by
      intro hac
      subst hac
      exact h (List.mem_cons_self a t)
    show strFindByte c (a :: (t ++ c :: l2)) = some (t.length + 1)
    unfold strFindByte
    rw [if_neg hane]
    rw [ih l2 (fun hm => h (List.mem_cons_of_mem a hm))]
    rfl

lemma foldl_digits_aux :
    ∀ (ds : List Nat) (acc : Nat),
      ((ds.reverse.map (fun d => d + 48)).foldl (fun a b => 10 * a + (b - 48)) acc)
        = acc * 10 ^ ds.length + Nat.ofDigits 10 ds := by
  intro ds
  induction ds with
  | nil =>
    intro acc
    simp [Nat.ofDigits_nil]
  | cons d tl ih =>
    intro acc
    rw [List.reverse_cons, List.map_append, List.foldl_append]
    rw [ih acc]
    show 10 * (acc * 10 ^ tl.length + Nat.ofDigits 10 tl) + (d + 48 - 48)
        = acc * 10 ^ (tl.length + 1) + Nat.ofDigits 10 (d :: tl)
    rw [Nat.ofDigits_cons, pow_succ]
    ring_nf
    omega

lemma digitsToNat_renderNat (n : Nat) : digitsToNat (renderNat n) = n := by
  unfold digitsToNat renderNat
  by_cases h : n = 0
  · simp [h]
  · rw [if_neg h, foldl_digits_aux (Nat.digits 10 n) 0]
    rw [Nat.ofDigits_digits]
    simp

lemma parseNumber_renderNat (n : Nat) (h : n < 2 ^ 32) :
    parseNumber (renderNat n) = .ok n := by
  unfold parseNumber
  rw [trim_eq_self (renderNat n)
    (fun b hb => not_ws_of_digit b (isDigitByte_renderNat n b hb))]
  rw [if_neg (by simpa [List.isEmpty_iff] using renderNat_ne_nil n)]
  rw [if_pos (List.all_eq_true.mpr (isDigitByte_renderNat n))]
  rw [digitsToNat_renderNat]
  rw [if_pos h]

/-- The expansion loop never terminates when the range end is the largest
32-bit value: the incremented counter wraps to 0 and stays `≤ end`. -/
lemma expandRange_max_none :
    ∀ (fuel cpu : Nat) (acc : List Nat), cpu < 2 ^ 32 →
      expandRange fuel cpu (2 ^ 32 - 1) acc = none := by
  intro fuel
  induction fuel with
  | zero => intro cpu acc _; rfl
  | succ f ih =>
    intro cpu acc hcpu
    unfold expandRange
    rw [if_pos (by omega)]
    exact ih _ _ (Nat.mod_lt _ (by norm_num))

/-- The expansion loop yields `[start..start+n]` when the end stays below
the 32-bit wraparound boundary and the fuel covers every iteration. -/
lemma expandRange_ok :
    ∀ (n a : Nat) (acc : List Nat) (fuel : Nat), a + n + 1 < 2 ^ 32 → n + 1 < fuel →
      expandRange fuel a (a + n) acc = some (acc ++ List.range' a (n + 1)) := by
  intro n
  induction n with
  | zero =>
    intro a acc fuel ha hf
    match fuel, hf with
    | f + 1, hf =>
      unfold expandRange
      rw [if_pos (by omega)]
      match f, hf with
      | f2 + 1, _ =>
        unfold expandRange
        rw [Nat.mod_eq_of_lt (by omega), if_neg (by omega)]
        simp
  | succ m ih =>
    intro a acc fuel ha hf
    match fuel, hf with
    | f + 1, hf =>
      unfold expandRange
      rw [if_pos (by omega), Nat.mod_eq_of_lt (by omega)]
      have heq : a + (m + 1) = (a + 1) + m := by omega
      rw [heq, ih (a + 1) (acc ++ [a]) f (by omega) (by omega)]
      rw [List.append_assoc]
      have hr : List.range' a (m + 1 + 1) = a :: List.range' (a + 1) (m + 1) := by
        rw [List.range'_succ]
      rw [hr]
      rfl

/-- For `a ≤ b` with `b` below the wraparound boundary, `parseCpuList` on
`"a-b"` returns `[a, …, b]` once the fuel covers the loop. -/
theorem parseCpuList_range_ok (a b : Nat) (hab : a ≤ b) (hb : b + 1 < 2 ^ 32)
    (fuel : Nat) (hfuel : b - a + 2 < fuel) :
    parseCpuList (fuel + 1) (renderRange a b) =
      some (.ok (List.range' a (b - a + 1))) := by
  have htrim : trim (renderRange a b) = renderRange a b :=
    trim_eq_self _ (not_whitespace_renderRange a b)
  have hne := renderRange_ne_nil a b
  have hnc : strFindByte 44 (renderRange a b) = none :=
    strFindByte_eq_none 44 _ (comma_not_mem_renderRange a b)
  have hdash : strFindByte 45 (renderRange a b) = some (renderNat a).length := by
    unfold renderRange
    exact strFindByte_first 45 _ _ (dash_not_mem_renderNat a)
  have htake : (renderRange a b).take (renderNat a).length = renderNat a := by
    unfold renderRange
    exact List.take_left _ _
  have hdrop : (renderRange a b).drop ((renderNat a).length + 1) = renderNat b := by
    unfold renderRange
    rw [← List.drop_drop, List.drop_left]
    rfl
  unfold parseCpuList
  rw [htrim, if_neg hne]
  simp only [parseLoop, hnc]
  unfold parseElement
  rw [htrim, if_neg hne]
  simp only [hdash, htake, hdrop, parseNumber_renderNat a (by omega),
    parseNumber_renderNat b (by omega)]
  rw [if_neg (by omega : ¬b < a)]
  have hexp := expandRange_ok (b - a) a [] fuel (by omega) (by omega)
  rw [show a + (b - a) = b by omega] at hexp
  rw [hexp]
  rfl

/-- For `a > b`, `parseCpuList` on `"a-b"` rejects the range with
`kParseError`. -/
theorem parseCpuList_range_rejected (a b : Nat) (hab : b < a)
    (ha : a < 2 ^ 32) (hb : b < 2 ^ 32) (fuel : Nat) :
    parseCpuList (fuel + 1) (renderRange a b) =
      some (.error TopologyError.kParseError) := by
  have htrim : trim (renderRange a b) = renderRange a b :=
    trim_eq_self _ (not_whitespace_renderRange a b)
  have hne := renderRange_ne_nil a b
  have hnc : strFindByte 44 (renderRange a b) = none :=
    strFindByte_eq_none 44 _ (comma_not_mem_renderRange a b)
  have hdash : strFindByte 45 (renderRange a b) = some (renderNat a).length := by
    unfold renderRange
    exact strFindByte_first 45 _ _ (dash_not_mem_renderNat a)
  have htake : (renderRange a b).take (renderNat a).length = renderNat a := by
    unfold renderRange
    exact List.take_left _ _
  have hdrop : (renderRange a b).drop ((renderNat a).length + 1) = renderNat b := by
    unfold renderRange
    rw [← List.drop_drop, List.drop_left]
    rfl
  unfold parseCpuList
  rw [htrim, if_neg hne]
  simp only [parseLoop, hnc]
  unfold parseElement
  rw [htrim, if_neg hne]
  simp only [hdash, htake, hdrop, parseNumber_renderNat a ha, parseNumber_renderNat b hb]
  rw [if_pos hab]

/-- The sysfs string `"4294967295-4294967295"` as ASCII byte values. -/
def maxRangeInput : List Nat :=
  [52, 50, 57, 52, 57, 54, 55, 50, 57, 53, 45,
   52, 50, 57, 52, 57, 54, 55, 50, 57, 53]

/-- C7: at `a = b = 4294967295` (the largest 32-bit value) the claim fails:
for every fuel bound the parse does not finish — the expansion loop wraps
`cpu` past `2^32 - 1` back to 0 and the exit condition never becomes false —
whereas the claim promises termination with the singleton `[4294967295]`.
For every `b` below the wraparound boundary the claimed behaviour does hold,
by `parseCpuList_range_ok` and `parseCpuList_range_rejected` above. -/
theorem parseCpuList_max_range_diverges :
    ∀ fuel, parseCpuList fuel maxRangeInput = none := by
  intro fuel
  match fuel with
  | 0 =>
    rfl
  | f + 1 =>
    have hstep : parseCpuList (f + 1) maxRangeInput =
        (expandRange f 4294967295 4294967295 []).map Except.ok := by
      rfl
    rw [hstep]
    have hnone : expandRange f 4294967295 4294967295 [] = none := by
      have h := expandRange_max_none f 4294967295 [] (by norm_num)
      rw [show (2 : Nat) ^ 32 - 1 = 4294967295 by norm_num] at h
      exact h
    rw [hnone]
    rfl

/-! ## MigrationTracker (`migration_tracker.cpp`)

`create` builds the ring-buffer consumer with
`ring_buffer__new(ring_fd, ringBufferCallback, nullptr, nullptr)` — a null
context — and no later code updates that context.  `ringBufferCallback`
receives that context on every record. -/

/-- `sizeof(struct migration_event)` = 8 + 4 + 4 + 4 + 4 + 16 = 40 bytes. -/
def kWireSize : Nat := 40

/-- A well-formed raw ring-buffer record (`struct migration_event`). -/
structure RawMigrationRecord where
  timestamp_ns : Nat
  pid : Nat
  tid : Nat
  src_cpu : Nat
  dst_cpu : Nat
  comm : List Nat
deriving DecidableEq, Repr

/-- The tracker state reachable through the consumer context pointer. -/
structure TrackerCtx where
  hasCallback : Bool
deriving DecidableEq, Repr

/-- Lines 188–199 of `migration_tracker.cpp`: zero-initialise a
`MigrationEvent`, copy the scalar fields and `memcpy` the 16 comm bytes. -/
def decodeRecord (r : RawMigrationRecord) : MigrationEvent :=
  { timestamp_ns := r.timestamp_ns, pid := r.pid, tid := r.tid,
    src_cpu := r.src_cpu, dst_cpu := r.dst_cpu,
    comm := r.comm.take 16 ++ List.replicate (16 - (r.comm.take 16).length) 0 }

/-- `MigrationTracker::ringBufferCallback`: drop records shorter than the
wire size, bail out when the context is null or carries no callback, and
otherwise deliver the decoded event.  The result is the event handed to the
user callback, if any. -/
def ringBufferCallback (ctx : Option TrackerCtx) (record : RawMigrationRecord)
    (size : Nat) : Option MigrationEvent :=
  if size < kWireSize then none
  else
    match ctx with
    | none => none
    | some tracker =>
      if tracker.hasCallback then some (decodeRecord record) else none

/-- The consumer context registered by `MigrationTracker::create`:
`ring_buffer__new(ring_fd, ringBufferCallback, nullptr, nullptr)` passes a
null pointer, and nothing ever replaces it. -/
def createdRingContext : Option TrackerCtx := none

/-- One `poll` drain: `ring_buffer__poll` runs `ringBufferCallback` once per
ready record (each a payload with its size), with the context registered at
creation; the result collects the events delivered to the user callback. -/
def pollDeliveredEvents (ctx : Option TrackerCtx)
    (records : List (RawMigrationRecord × Nat)) : List MigrationEvent :=
  records.filterMap (fun rs => ringBufferCallback ctx rs.1 rs.2)

/-- A well-formed 40-byte record. -/
def demoRecord : RawMigrationRecord := ⟨12345, 10, 11, 0, 4, List.replicate 16 65⟩

/-- C4: with the context as `create` registered it (null), the consumer
callback delivers nothing — not for a record of exactly the wire size, not
for a larger one, and (as claimed) not for a short one — and a whole `poll`
drain over any batch of records delivers no event at all.  The user
callback is therefore never invoked, contradicting "exactly once per record
whose size is at least the wire size". -/
theorem ringBufferCallback_never_delivers :
    ringBufferCallback createdRingContext demoRecord 40 = none ∧
    ringBufferCallback createdRingContext demoRecord 4096 = none ∧
    ringBufferCallback createdRingContext demoRecord 39 = none ∧
    ∀ records, pollDeliveredEvents createdRingContext records = [] := by
  refine ⟨rfl, rfl, rfl, ?_⟩
  intro records
  induction records with
  | nil => rfl
  | cons r rest ih =>
    show pollDeliveredEvents createdRingContext (r :: rest) = []
    have hnone : ringBufferCallback createdRingContext r.1 r.2 = none := by
      unfold ringBufferCallback createdRingContext
      split
      · rfl
      · rfl
    unfold pollDeliveredEvents at ih ⊢
    rw [List.filterMap_cons, hnone, ih]

/-! ## start state machines (`pmu_sampler.cpp`, `migration_tracker.cpp`) -/

/-- Observable outcome of `MigrationTracker::start`. -/
structure MigStartOutcome where
  result : Except EbpfError Unit
  attach_attempted : Bool
  running_after : Bool
deriving DecidableEq, Repr

/-- `MigrationTracker::start`: when already running, return success without
attaching; otherwise attach and mark running on success. -/
def MigrationTracker.start (running : Bool) (attach : Except EbpfError Unit) :
    MigStartOutcome :=
  if running then ⟨.ok (), false, running⟩
  else
    match attach with
    | .error e => ⟨.error e, true, false⟩
    | .ok _ => ⟨.ok (), true, true⟩

/-- Observable outcome of `PmuSampler::start`. -/
structure PmuStartOutcome where
  result : Except PmuError Unit
  worker_launched : Bool
  running_after : Bool
deriving DecidableEq, Repr

/-- `PmuSampler::start`: reject with `kInvalidState` when already running;
otherwise reset, enable, and only then launch the worker. -/
def PmuSampler.start (running : Bool) (resetR enableR : Except PmuError Unit) :
    PmuStartOutcome :=
  if running then ⟨.error PmuError.kInvalidState, false, running⟩
  else
    match resetR with
    | .error e => ⟨.error e, false, false⟩
    | .ok _ =>
      match enableR with
      | .error e => ⟨.error e, false, false⟩
      | .ok _ => ⟨.ok (), true, true⟩

/-- C8 counterexample: `MigrationTracker::start` on a running tracker
returns success (an idempotent no-op), not the claimed `kInvalidState`. -/
theorem migrationTracker_start_running_succeeds :
    (MigrationTracker.start true (.ok ())).result = .ok () ∧
    (MigrationTracker.start true (.ok ())).result ≠ .error EbpfError.kInvalidState := by
  refine ⟨rfl, by decide⟩

/-- C8 amended: `PmuSampler::start` while running fails with
`kInvalidState` and launches no worker; `MigrationTracker::start` while
running returns success and performs no attach. -/
theorem start_when_running_behaviour :
    (∀ resetR enableR, PmuSampler.start true resetR enableR =
      ⟨.error PmuError.kInvalidState, false, true⟩) ∧
    (∀ attach, MigrationTracker.start true attach = ⟨.ok (), false, true⟩) := by
  constructor
  · intro resetR enableR
    rfl
  · intro attach
    rfl

/-! ## PmuGroup::read (`pmu_group.cpp`)

The 48-byte `GroupReadFormat` struct (`nr` plus five values) is
zero-initialised, then `::read` writes `bytes_read` bytes into it.  The
decode below takes the read outcome — an error for `bytes_read < 0`, or the
byte list the kernel wrote — and follows the source's checks. -/

/-- `PmuGroup::kInvalidFd`. -/
def kInvalidFd : Int := -1

/-- `PmuGroup::kCounterCount`. -/
def kCounterCount : Nat := 5

/-- The five perf-event descriptors of a `PmuGroup`. -/
structure PmuGroup where
  fds : List Int
deriving DecidableEq, Repr

/-- `PmuGroup::isValid`: every descriptor differs from the sentinel. -/
def PmuGroup.isValid (g : PmuGroup) : Bool :=
  g.fds.all (fun fd => decide (fd ≠ kInvalidFd))

/-- `PmuGroupReading` from `pmu_group.hpp`. -/
structure PmuGroupReading where
  cycles : Nat
  instructions : Nat
  llc_loads : Nat
  llc_load_misses : Nat
  branch_misses : Nat
deriving DecidableEq, Repr

/-- Little-endian decode of the 8 bytes at offset `off`. -/
def le64 (bytes : List Nat) (off : Nat) : Nat :=
  (List.range 8).foldl (fun acc i => acc + bytes.getD (off + i) 0 * 256 ^ i) 0

/-- The zero-initialised 48-byte struct after `::read` wrote `written`. -/
def structAfterRead (written : List Nat) : List Nat :=
  written ++ List.replicate (48 - written.length) 0

/-- `PmuGroup::read`: `kInvalidState` on an invalid group; `kReadFailed` on
a failed read, on fewer than `sizeof(data.nr)` = 8 bytes, or on a decoded
counter count different from 5; otherwise the five values mapped back in
registration order (offsets 8, 16, 24, 32, 40). -/
def PmuGroup.read (g : PmuGroup) (readOutcome : Except Unit (List Nat)) :
    Except PmuError PmuGroupReading :=
  if !g.isValid then .error PmuError.kInvalidState
  else
    match readOutcome with
    | .error _ => .error PmuError.kReadFailed
    | .ok written =>
      if written.length < 8 then .error PmuError.kReadFailed
      else if le64 (structAfterRead written) 0 ≠ kCounterCount then
        .error PmuError.kReadFailed
      else
        .ok { cycles := le64 (structAfterRead written) 8,
              instructions := le64 (structAfterRead written) 16,
              llc_loads := le64 (structAfterRead written) 24,
              llc_load_misses := le64 (structAfterRead written) 32,
              branch_misses := le64 (structAfterRead written) 40 }

/-- A group whose five descriptors are all open. -/
def validGroup : PmuGroup := ⟨[3, 4, 5, 6, 7]⟩

/-- A little-endian 64-bit word holding a one-byte value. -/
def w64 (v : Nat) : List Nat := v :: List.replicate 7 0

/-- An 8-byte read: only `nr = 5` was written, no counter values. -/
def shortReadBytes : List Nat := w64 5

/-- C9 counterexample: a short read of 8 of the 48 bytes with `nr = 5` is
ACCEPTED — `read` returns an all-zero reading instead of the claimed
`kReadFailed`, because the source only rejects reads shorter than the 8-byte
`nr` field. -/
theorem pmuGroup_read_short_accepted :
    PmuGroup.read validGroup (.ok shortReadBytes) = .ok ⟨0, 0, 0, 0, 0⟩ ∧
    shortReadBytes.length < 48 := by
  refine ⟨by decide, by decide⟩

/-- C9 amended: `read` returns `kInvalidState` on an invalid group;
`kReadFailed` on a failed read, on fewer than 8 bytes, or on `nr ≠ 5`; and
otherwise the reading whose five values decode the buffer at offsets
8/16/24/32/40 in registration order — accepting reads of 8 to 47 bytes with
`nr = 5`, the unwritten bytes reading as zero. -/
theorem pmuGroup_read_spec (g : PmuGroup) (outcome : Except Unit (List Nat)) :
    (g.isValid = false → PmuGroup.read g outcome = .error PmuError.kInvalidState) ∧
    (∀ u, g.isValid = true → outcome = .error u →
      PmuGroup.read g outcome = .error PmuError.kReadFailed) ∧
    (∀ written, g.isValid = true → outcome = .ok written → written.length < 8 →
      PmuGroup.read g outcome = .error PmuError.kReadFailed) ∧
    (∀ written, g.isValid = true → outcome = .ok written → 8 ≤ written.length →
      le64 (structAfterRead written) 0 ≠ kCounterCount →
      PmuGroup.read g outcome = .error PmuError.kReadFailed) ∧
    (∀ written, g.isValid = true → outcome = .ok written → 8 ≤ written.length →
      le64 (structAfterRead written) 0 = kCounterCount →
      PmuGroup.read g outcome =
        .ok { cycles := le64 (structAfterRead written) 8,
              instructions := le64 (structAfterRead written) 16,
              llc_loads := le64 (structAfterRead written) 24,
              llc_load_misses := le64 (structAfterRead written) 32,
              branch_misses := le64 (structAfterRead written) 40 }) := by
  refine ⟨?_, ?_, ?_, ?_, ?_⟩
  · intro hv
    unfold PmuGroup.read
    rw [hv]
    rfl
  · intro u hv ho
    unfold PmuGroup.read
    rw [hv, ho]
    rfl
  · intro written hv ho hlen
    unfold PmuGroup.read
    rw [hv, ho]
    simp only [Bool.not_true, Bool.false_eq_true, if_false]
    rw [if_pos hlen]
  · intro written hv ho hlen hnr
    unfold PmuGroup.read
    rw [hv, ho]
    simp only [Bool.not_true, Bool.false_eq_true, if_false]
    rw [if_neg (by omega), if_pos hnr]
  · intro written hv ho hlen hnr
    unfold PmuGroup.read
    rw [hv, ho]
    simp only [Bool.not_true, Bool.false_eq_true, if_false]
    rw [if_neg (by omega), if_neg (by simp [hnr])]

/-- A full 48-byte read: `nr = 5` and values 11,22,33,44,55. -/
def fullReadBytes : List Nat :=
  w64 5 ++ w64 11 ++ w64 22 ++ w64 33 ++ w64 44 ++ w64 55

theorem pmuGroup_read_spec_witness :
    validGroup.isValid = true ∧ (8 : Nat) ≤ fullReadBytes.length ∧
    le64 (structAfterRead fullReadBytes) 0 = kCounterCount ∧
    PmuGroup.read validGroup (.ok fullReadBytes) =
      .ok { cycles := le64 (structAfterRead fullReadBytes) 8,
            instructions := le64 (structAfterRead fullReadBytes) 16,
            llc_loads := le64 (structAfterRead fullReadBytes) 24,
            llc_load_misses := le64 (structAfterRead fullReadBytes) 32,
            branch_misses := le64 (structAfterRead fullReadBytes) 40 } :=
  ⟨by decide, by decide, by decide,
    (pmuGroup_read_spec validGroup (.ok fullReadBytes)).2.2.2.2 fullReadBytes
      (by decide) rfl (by decide) (by decide)⟩

/-! ## commAsStringView (`events.hpp`)

`commAsStringView` computes `std::char_traits<char>::length(comm.data())` —
a strlen that scans memory from the start of the 16-byte `comm` array until
it finds a NUL, with no bound at the array edge — and then clamps only the
RETURNED length with `std::min(len, comm.size())`.  The scan is modelled
over the comm bytes followed by whatever bytes sit beyond the array. -/

/-- `strlen`: index of the first NUL byte in the scanned memory (`none` if
the given memory holds none). -/
def cstrlen (mem : List Nat) : Option Nat :=
  strFindByte 0 mem

/-- `MigrationEvent::commAsStringView` over the comm array and the adjacent
`beyond` bytes: the returned view is the first `min(strlen, comm.size())`
bytes. -/
def commAsStringView (comm beyond : List Nat) : Option (List Nat) :=
  (cstrlen (comm ++ beyond)).map (fun len => (comm ++ beyond).take (min len comm.length))

/-- A fully-used comm buffer: sixteen 0x41 bytes, no NUL terminator. -/
def fullComm : List Nat := List.replicate 16 65

/-- C10: with a fully-used comm (no NUL in its 16 bytes — a layout the wire
format permits), the strlen scan dereferences the NUL it finds at offset 16
or beyond, OUTSIDE the array, and the scan length depends on the adjacent
memory — refuting "only reads bytes inside the comm array".  The returned
view is nevertheless clamped to the 16 comm bytes. -/
theorem commAsStringView_scans_past_comm :
    (∀ i, i < 16 → fullComm.getD i 0 ≠ 0) ∧
    cstrlen (fullComm ++ [0]) = some 16 ∧
    cstrlen (fullComm ++ [65, 0]) = some 17 ∧
    commAsStringView fullComm [0] = some fullComm ∧
    commAsStringView fullComm [65, 0] = some fullComm := by
  refine ⟨by decide, by decide, by decide, by decide, by decide⟩

end Threveal
